import Mathlib

/-!
Shallow embedding of the `fx` filesystem-inspection toolkit.

Paths are modelled as lists of components (`List String`); following the
Unix `Path` component model, an absolute path carries the root component
encoded as the string "/" in head position, and the special components
"." and ".." are kept as literal strings (they only matter to
`normalize`, which interprets them exactly as `src/path.rs` does).

Machine integers (`u64`, `usize`, `u32`, `i64`) are modelled as `Nat`
and `Int`; none of the embedded arithmetic can overflow at the modelled
widths except the Rust division by zero in `read_mid`, which is modelled
explicitly with an `Option` (Rust panics there).

Filesystem access is modelled environmentally: directory listings,
metadata lookups and file reads are parameters (functions or event
lists) supplied to the embedded operations.
-/

namespace Fx

/-- A filesystem path, as its list of components. -/
abbrev Path := List String

/-- `std::path::Path::starts_with`: component-wise prefix test. -/
def pathStartsWith (p base : Path) : Bool :=
  base.isPrefixOf p

/-- `std::path::Path::file_name`: the final component, unless the path is
empty (no components) or terminates in `..` (and the encoded root
component `"/"` alone also has no file name). -/
def fileName (p : Path) : Option String :=
  match p.getLast? with
  | none => none
  | some s => if s = ".." ∨ s = "/" then none else some s

/-- `std::path::Path::ancestors`: the path itself followed by each
successive `parent`, ending with the empty path.  Computed as the
reversed tails of the reversed component list, which is exactly that
sequence (see `ancestors_nil` and `ancestors_concat`). -/
def ancestors (p : Path) : List Path :=
  p.reverse.tails.map List.reverse

/-- `normalize` from `src/path.rs`: lexical resolution of `path` against
`workingDir`; a root component resets the accumulator, `..` pops one
component (`PathBuf::pop`, a no-op when the accumulator has no parent:
the lone root component or the empty path), `.` is ignored, a normal
name is appended. -/
def normalize (workingDir : Path) (path : Path) : Path :=
  path.foldl
    (fun normalized comp =>
      if comp = "/" then ["/"]
      else if comp = ".." then
        if normalized = ["/"] then normalized else normalized.dropLast
      else if comp = "." then normalized
      else normalized ++ [comp])
    workingDir

/-- `FileType` from `src/data.rs`. -/
inductive FileType where
  | regular
  | directory
  | symlink (dst : Path)
  | sock
  | fifo
  | devChar
  | devBlock
  | unknown
  deriving DecidableEq, Repr

/-- `Meta` from `src/data.rs`: one record per filesystem entry.
Field defaults are a modelling convenience for building concrete
witnesses; the Rust struct has no defaults. -/
structure Meta where
  path : Path := []
  typ : FileType := FileType.regular
  size : Nat := 0
  mode : Nat := 0
  perms : Nat := 0
  uid : Nat := 0
  gid : Nat := 0
  dev : Nat := 0
  ino : Nat := 0
  nlink : Nat := 0
  rdev : Nat := 0
  atime : Int := 0
  mtime : Int := 0
  ctime : Int := 0
  blksize : Nat := 0
  blocks : Nat := 0
  deriving DecidableEq, Repr

/-- `Meta::is_symlink`. -/
def Meta.is_symlink (m : Meta) : Bool :=
  match m.typ with
  | FileType.symlink _ => true
  | _ => false

/-- `Meta::is_regular_file`. -/
def Meta.is_regular_file (m : Meta) : Bool :=
  match m.typ with
  | FileType.regular => true
  | _ => false

/-- `Meta::is_directory`. -/
def Meta.is_directory (m : Meta) : Bool :=
  match m.typ with
  | FileType.directory => true
  | _ => false

/-- The `io::ErrorKind` values the program distinguishes, plus a
catch-all for every other kind. -/
inductive IOErrorKind where
  | interrupted
  | notFound
  | permissionDenied
  | otherKind
  deriving DecidableEq, Repr

deriving instance DecidableEq for Except

/-! ## Refiner (`refine` in `src/cmd/dups.rs`)

A discriminator is the byte-string a pass computes for a member.  A
grouper that fails for a member (logged and dropped in the Rust code)
is modelled as returning `none`.  The Rust `HashMap<Vec<u8>, Vec<Meta>>`
bucket map is modelled as an association list; bucket contents and the
membership facts the claims are about are identical, only bucket order
(unspecified in Rust) differs. -/

/-- A discriminator byte-string. -/
abbrev Disc := List Nat

/-- `refined_groups.entry(id).or_default().push(member)`. -/
def insertBucket (buckets : List (Disc × List Meta)) (id : Disc) (m : Meta) :
    List (Disc × List Meta) :=
  match buckets with
  | [] => [(id, [m])]
  | (d, ms) :: rest =>
    if d = id then (d, ms ++ [m]) :: rest
    else (d, ms) :: insertBucket rest id m

/-- The per-group body of `refine`: compute each member's discriminator
(dropping failures), bucket members by discriminator, and keep only
buckets with more than one member. -/
def refineGroup (grouper : Meta → Option Disc) (group : List Meta) :
    List (List Meta) :=
  let pairs := group.filterMap (fun m => (grouper m).map (fun d => (d, m)))
  let buckets := pairs.foldl (fun acc p => insertBucket acc p.1 p.2) []
  (buckets.map Prod.snd).filter (fun g => 1 < g.length)

/-- `refine` from `src/cmd/dups.rs`: refine every group and flatten
(the Rust version maps groups in parallel and `.flatten().collect()`s). -/
def refine (groups : List (List Meta)) (grouper : Meta → Option Disc) :
    List (List Meta) :=
  (groups.map (refineGroup grouper)).flatten

/-- The pass loop in `dups`: `for (span, f) in groupers(..) { groups = refine(span, &groups, f)? }`. -/
def refineAll (groups : List (List Meta)) (passes : List (Meta → Option Disc)) :
    List (List Meta) :=
  passes.foldl refine groups

/-- `u64::to_le_bytes().to_vec()`: the `w` little-endian base-256 digits. -/
def natToLeBytes (n w : Nat) : List Nat :=
  (List.range w).map (fun i => n / 256 ^ i % 256)

/-- Pass 1 of `groupers` in `src/cmd/dups.rs`: discriminate by file size,
encoded as the 8 little-endian bytes of the `u64`. -/
def sizeGrouper (m : Meta) : Option Disc :=
  some (natToLeBytes m.size 8)

/-! ## SizeAggregator (`count_dir_sizes` in `src/cmd/top.rs`)

The Rust code folds files through a concurrent `DashMap`; addition is
commutative and keys unique, so a sequential fold over the file list
with an association-list map computes the same mapping. -/

/-- `*dirs.entry(dir.to_owned()).or_insert(0) += size`. -/
def addToDir (dirs : List (Path × Nat)) (dir : Path) (size : Nat) :
    List (Path × Nat) :=
  match dirs with
  | [] => [(dir, size)]
  | (d, s) :: rest =>
    if d = dir then (d, s + size) :: rest
    else (d, s) :: addToDir rest dir size

/-- The per-file body of `count_dir_sizes`: for every strict ancestor
(`ancestors().skip(1)`) of the file that starts with the root, add the
file's size to that ancestor's bucket. -/
def addFileSizes (rootPath : Path) (dirs : List (Path × Nat))
    (file : Path) (size : Nat) : List (Path × Nat) :=
  ((ancestors file).drop 1).foldl
    (fun acc dir =>
      if pathStartsWith dir rootPath then addToDir acc dir size else acc)
    dirs

/-- `count_dir_sizes` from `src/cmd/top.rs`. -/
def count_dir_sizes (files : List (Path × Nat)) (rootPath : Path) :
    List (Path × Nat) :=
  files.foldl (fun dirs f => addFileSizes rootPath dirs f.1 f.2) []

/-- Lookup in the accumulated size map (`HashMap`/`DashMap` get). -/
def lookupSize : List (Path × Nat) → Path → Option Nat
  | [], _ => none
  | (p, s) :: rest, d => if p = d then some s else lookupSize rest d

/-! ## Walker (`Find` in `src/data.rs`)

`read_dir` and the per-entry `DirEntry`/`Meta::from_dir_entry` results
are environmental; a filesystem is a function from a directory path to
either an open error or the list of per-entry results in iteration
order.  The Rust frontier is a `Vec` used as a stack (`push`/`pop`);
it is modelled as a list with head = top of stack. -/

/-- What enumerating one directory yields: an open error, or the
sequence of entry results (each an entry/metadata error or a `Meta`). -/
abbrev DirListing := Except IOErrorKind (List (Except IOErrorKind Meta))

/-- An environment filesystem for the walker. -/
abbrev WalkFS := Path → DirListing

/-- The `Find` iterator state from `src/data.rs` (its three fields). -/
structure FindState where
  frontier : List Meta
  skipDirs : List String
  skipPrefixes : List Path
  deriving DecidableEq, Repr

/-- `Find::est_omittendus_praefixo`: some configured skip-prefix is a
component-wise prefix of the path. -/
def estOmittendusPraefixo (s : FindState) (path : Path) : Bool :=
  s.skipPrefixes.any (fun p => pathStartsWith path p)

/-- `Find::est_omittendus_nomine`: the name is a configured skip-name. -/
def estOmittendusNomine (s : FindState) (name : String) : Bool :=
  s.skipDirs.contains name

/-- `Find::est_omittendus`: prefix rule, or (directory and its file
name, when it has one, matches a skip-name). -/
def estOmittendus (s : FindState) (m : Meta) : Bool :=
  estOmittendusPraefixo s m.path ||
    (m.is_directory &&
      ((fileName m.path).map (fun n => estOmittendusNomine s n)).getD false)

/-- `Find::new`: seed the frontier with the root's `Meta` unless the
root itself is omitted (the root `Meta` read is environmental and is
passed in already read). -/
def findNew (rootMeta : Meta) (skipDirs : List String)
    (skipPrefixes : List Path) : FindState :=
  let s : FindState := { frontier := [], skipDirs := skipDirs, skipPrefixes := skipPrefixes }
  if estOmittendus s rootMeta then s else { s with frontier := [rootMeta] }

/-- The entry loop of `Find::next`: push each entry `Meta` that passes
the skip rules; stop at the first entry/metadata error, returning the
frontier as pushed so far together with that error. -/
def pushEntries (s : FindState) (frontier : List Meta) :
    List (Except IOErrorKind Meta) → List Meta × Option IOErrorKind
  | [] => (frontier, none)
  | Except.error e :: _ => (frontier, some e)
  | Except.ok m :: rest =>
    pushEntries s (if estOmittendus s m then frontier else m :: frontier) rest

/-- `Find::next` from `src/data.rs`: pop a `Meta`; if it is a directory,
enumerate it (an open error or an entry error is returned as the item,
in place of the popped `Meta`); otherwise yield the popped `Meta`. -/
def findNext (fs : WalkFS) (s : FindState) :
    Option (Except IOErrorKind Meta) × FindState :=
  match s.frontier with
  | [] => (none, s)
  | meta :: rest =>
    if meta.is_directory then
      match fs meta.path with
      | Except.error e => (some (Except.error e), { s with frontier := rest })
      | Except.ok entries =>
        match pushEntries s rest entries with
        | (fr, some e) => (some (Except.error e), { s with frontier := fr })
        | (fr, none) => (some (Except.ok meta), { s with frontier := fr })
    else (some (Except.ok meta), { s with frontier := rest })

/-- Drive the iterator for at most `fuel` steps, collecting the items. -/
def findRun (fs : WalkFS) (s : FindState) : Nat → List (Except IOErrorKind Meta)
  | 0 => []
  | fuel + 1 =>
    match findNext fs s with
    | (none, _) => []
    | (some item, s') => item :: findRun fs s' fuel

/-! ## Bounded reads (`read`, `read_head`, `read_mid` in `src/cmd/dups.rs`)

A file read is modelled by a schedule of read events at the seek
position: each `read(&mut buf[read_total..])` call consumes one event,
which delivers some bytes (`chunk []` is `Ok(0)`, i.e. EOF) or fails.
The kernel cannot deliver more bytes than the passed slice holds, which
the model enforces by truncating a delivered chunk to the remaining
space.  An exhausted schedule (a real read would block) is the `none`
result. -/

/-- One outcome of a `read` call. -/
inductive ReadEvent where
  | chunk (data : List Nat)
  | fail (e : IOErrorKind)
  deriving DecidableEq, Repr

/-- Overwrite `buf` starting at `pos` with `data` (truncated to the
space available), keeping the length of `buf`. -/
def listWrite (buf : List Nat) (pos : Nat) (data : List Nat) : List Nat :=
  let d := data.take (buf.length - pos)
  buf.take pos ++ d ++ buf.drop (pos + d.length)

/-- The `while read_total < amount` loop of `read`: copy delivered
chunks into the buffer, break at EOF (`Ok(0)`), retry on an interrupted
read, and return any other error. -/
def readLoop (amount : Nat) :
    List ReadEvent → List Nat → Nat → Option (Except IOErrorKind (List Nat))
  | [], buf, readTotal =>
    if amount ≤ readTotal then some (Except.ok buf) else none
  | ev :: rest, buf, readTotal =>
    if amount ≤ readTotal then some (Except.ok buf)
    else
      match ev with
      | ReadEvent.chunk [] => some (Except.ok buf)
      | ReadEvent.chunk (b :: bs) =>
        let d := (b :: bs).take (amount - readTotal)
        readLoop amount rest (listWrite buf readTotal d) (readTotal + d.length)
      | ReadEvent.fail IOErrorKind.interrupted =>
        readLoop amount rest buf readTotal
      | ReadEvent.fail e => some (Except.error e)

/-- `read` from `src/cmd/dups.rs`: a zero-initialized buffer of length
`amount` is filled by the read loop (the open and seek are part of the
environment that produces the event schedule). -/
def readAt (events : List ReadEvent) (amount : Nat) :
    Option (Except IOErrorKind (List Nat)) :=
  readLoop amount events (List.replicate amount 0) 0

/-- The bytes the read loop actually writes into the buffer for a given
schedule, starting at fill position `readTotal`: the delivered chunks,
each truncated to the space remaining, up to EOF or the end of the
schedule.  An observer of `readLoop`, used to state which prefix of the
returned buffer is file data and which tail is zero padding. -/
def readBytes (amount : Nat) : List ReadEvent → Nat → List Nat
  | [], _ => []
  | ev :: rest, readTotal =>
    if amount ≤ readTotal then []
    else
      match ev with
      | ReadEvent.chunk [] => []
      | ReadEvent.chunk (b :: bs) =>
        let d := (b :: bs).take (amount - readTotal)
        d ++ readBytes amount rest (readTotal + d.length)
      | ReadEvent.fail IOErrorKind.interrupted => readBytes amount rest readTotal
      | ReadEvent.fail _ => []

/-- The seek offset `read_mid` computes: `total / sample_size / 2` in
`u64` arithmetic, whose division panics when `sample_size` is zero —
the panic is the `none` case. -/
def readMidOffset (total sampleSize : Nat) : Option Nat :=
  if sampleSize = 0 then none else some (total / sampleSize / 2)

/-- The amount both samplers read: `min(total, sample_size)`. -/
def sampleAmount (total sampleSize : Nat) : Nat :=
  min total sampleSize

/-- `read_mid` from `src/cmd/dups.rs`, exposing the `(offset, amount)`
pair it invokes `read` with; `none` is the division-by-zero panic. -/
def readMidCall (m : Meta) (sampleSize : Nat) : Option (Nat × Nat) :=
  (readMidOffset m.size sampleSize).map
    (fun off => (off, sampleAmount m.size sampleSize))

/-- `read_mid` composed with the read loop over an event schedule. -/
def read_mid (m : Meta) (sampleSize : Nat) (events : List ReadEvent) :
    Option (Except IOErrorKind (List Nat)) :=
  match readMidCall m sampleSize with
  | none => none
  | some (_, amount) => readAt events amount

/-- `read_head` from `src/cmd/dups.rs`: offset 0, amount
`min(total, sample_size)`. -/
def read_head (m : Meta) (sampleSize : Nat) (events : List ReadEvent) :
    Option (Except IOErrorKind (List Nat)) :=
  readAt events (sampleAmount m.size sampleSize)

/-! ## Streaming hashers (`src/hash.rs`)

All three functions share one read loop: `let n = file.read(&mut buff)?`
— the `?` propagates every error — then feed `&buff[..n]` to the digest
until `n == 0`.  The digest computation itself lives in external crates
(`twox_hash`, `blake3`, `sha2`); it is abstracted as the exact sequence
of bytes fed to it, which is what the read-behavior claims are about.
A delivered chunk is truncated to the `chunk_size`-sized buffer. -/

/-- The shared read loop of `xxh`, `blake3` and `sha2_512`. -/
def hashLoop (chunkSize : Nat) :
    List ReadEvent → List Nat → Option (Except IOErrorKind (List Nat))
  | [], _ => none
  | ReadEvent.chunk [] :: _, acc => some (Except.ok acc)
  | ReadEvent.chunk (b :: bs) :: rest, acc =>
    hashLoop chunkSize rest (acc ++ (b :: bs).take chunkSize)
  | ReadEvent.fail e :: _, _ => some (Except.error e)

/-- `xxh` from `src/hash.rs` (bytes fed to `XxHash3_64`). -/
def xxh (chunkSize : Nat) (events : List ReadEvent) :
    Option (Except IOErrorKind (List Nat)) :=
  hashLoop chunkSize events []

/-- `blake3` from `src/hash.rs` (bytes fed to `blake3::Hasher`). -/
def blake3 (chunkSize : Nat) (events : List ReadEvent) :
    Option (Except IOErrorKind (List Nat)) :=
  hashLoop chunkSize events []

/-- `sha2_512` from `src/hash.rs` (bytes fed to `sha2::Sha512`). -/
def sha2_512 (chunkSize : Nat) (events : List ReadEvent) :
    Option (Except IOErrorKind (List Nat)) :=
  hashLoop chunkSize events []

/-! ## CycleDetector and the `loops` command (`src/cmd/loops.rs`) -/

/-- The filesystem environment `find_cycling_inode` touches:
`Meta::from_path` on a resolved symlink target, and directory
enumeration (as for the walker). -/
structure LoopsFS where
  metaOf : Path → Except IOErrorKind Meta
  readDir : Path → DirListing

/-- The directory arm of `find_cycling_inode`: push every entry's
`Meta`; any entry or metadata error is propagated (`?` in the Rust). -/
def expandDir (frontier : List Meta) :
    List (Except IOErrorKind Meta) → Except IOErrorKind (List Meta)
  | [] => Except.ok frontier
  | Except.error e :: _ => Except.error e
  | Except.ok m :: rest => expandDir (m :: frontier) rest

/-- `find_cycling_inode` from `src/cmd/loops.rs`, fuelled: pop a `Meta`;
a revisited inode is the cycle; a symlink's target is resolved with
`normalize` against the link's parent directory and pushed when its
metadata is readable (a dangling target is ignored); a directory is
enumerated with every error propagated; the popped inode is then marked
visited.  `none` is fuel exhaustion (a model artifact). -/
def find_cycling_inode (fs : LoopsFS) :
    Nat → List Meta → List Nat → Option (Except IOErrorKind (Option Nat))
  | 0, _, _ => none
  | _ + 1, [], _ => some (Except.ok none)
  | fuel + 1, current :: rest, visited =>
    if current.ino ∈ visited then some (Except.ok (some current.ino))
    else
      match current.typ with
      | FileType.symlink dst =>
        let dstNorm := normalize current.path.dropLast dst
        let fr :=
          match fs.metaOf dstNorm with
          | Except.ok m => m :: rest
          | Except.error _ => rest
        find_cycling_inode fs fuel fr (current.ino :: visited)
      | FileType.directory =>
        match fs.readDir current.path with
        | Except.error e => some (Except.error e)
        | Except.ok entries =>
          match expandDir rest entries with
          | Except.error e => some (Except.error e)
          | Except.ok fr => find_cycling_inode fs fuel fr (current.ino :: visited)
      | _ => find_cycling_inode fs fuel rest (current.ino :: visited)

/-- The walker-stream prefilter in `loops`: drop error items
(`filter_map(Result::ok)`) and keep only symlinks. -/
def loopsLinks (stream : List (Except IOErrorKind Meta)) : List Meta :=
  (stream.filterMap (fun r =>
    match r with
    | Except.ok m => some m
    | Except.error _ => none)).filter Meta.is_symlink

/-- `index.entry(inode).or_default().insert(path)` (a `HashSet`, so the
path is inserted only once). -/
def indexInsert (index : List (Nat × List Path)) (ino : Nat) (p : Path) :
    List (Nat × List Path) :=
  match index with
  | [] => [(ino, [p])]
  | (i, ps) :: rest =>
    if i = ino then (i, if p ∈ ps then ps else ps ++ [p]) :: rest
    else (i, ps) :: indexInsert rest ino p

/-- The link loop of `loops`: `find_cycling_inode(&link_meta)?` — a
detector error aborts the whole command (`?`). -/
def loopsGo (fs : LoopsFS) (fuel : Nat) :
    List Meta → List (Nat × List Path) →
      Option (Except IOErrorKind (List (Nat × List Path)))
  | [], index => some (Except.ok index)
  | link :: rest, index =>
    match find_cycling_inode fs fuel [link] [] with
    | none => none
    | some (Except.error e) => some (Except.error e)
    | some (Except.ok none) => loopsGo fs fuel rest index
    | some (Except.ok (some ino)) =>
      loopsGo fs fuel rest (indexInsert index ino link.path)

/-- `loops` from `src/cmd/loops.rs`: index every symlink from the walk
stream by its cycle inode; the printed groups are the index values. -/
def loops (fs : LoopsFS) (fuel : Nat)
    (stream : List (Except IOErrorKind Meta)) :
    Option (Except IOErrorKind (List (Nat × List Path))) :=
  loopsGo fs fuel (loopsLinks stream) []

/-! ## Dangling-link probe (`dangling_symlinks` in `src/cmd/dang.rs`)

`canonicalize` is environmental: a function from the symlink source
path to the canonicalized path or the error kind it fails with. -/

/-- `dangling_symlinks` from `src/cmd/dang.rs`: keep the `(src, dst)` of
each successfully read symlink, then keep those whose `canonicalize`
fails with `NotFound` (a success or any other error kind drops the
link, the latter after logging). -/
def dangling_symlinks (stream : List (Except IOErrorKind Meta))
    (canon : Path → Except IOErrorKind Path) : List (Path × Path) :=
  (stream.filterMap (fun r =>
    match r with
    | Except.ok m =>
      match m.typ with
      | FileType.symlink dst => some (m.path, dst)
      | _ => none
    | Except.error _ => none)).filter (fun sd =>
      match canon sd.1 with
      | Except.ok _ => false
      | Except.error IOErrorKind.notFound => true
      | Except.error _ => false)

/-! ## `dups` report printing (`src/cmd/dups.rs`, lines 135-147)

The record separator is `"\x00"` under `-Z` and `"\n"` otherwise; after
each group the code calls `println!()`, which always emits `"\n"`.
Path rendering (`Display` or `Debug` quoting) is a parameter. -/

/-- The chosen record separator: `if null_line_sep { "\0" } else { "\n" }`. -/
def dupsSep (nullLineSep : Bool) : String :=
  if nullLineSep then "\x00" else "\n"

/-- The report loop of `dups`: every path is printed followed by the
separator, and `println!()` terminates each group. -/
def dupsOutput (render : Meta → String) (nullLineSep : Bool)
    (groups : List (List Meta)) : String :=
  groups.foldl
    (fun out group =>
      (group.foldl (fun o file => o ++ render file ++ dupsSep nullLineSep) out)
        ++ "\n")
    ""

/-- A concrete stand-in for `Display` path rendering, for evaluating the
report at concrete inputs. -/
def renderPath (m : Meta) : String :=
  String.intercalate "/" m.path

/-! ## Spec-side predicate for the skip rules

Follows the spec's words (skip rule semantics, rules (a) and (b)), to
be compared with the source-translated `estOmittendus`. -/

/-- Spec wording: a candidate Meta is omitted when (a) any configured
skip-prefix is a component-wise path-prefix of its path, or (b) its type
is Directory and its base-name equals any configured skip-name. -/
def specOmitted (s : FindState) (m : Meta) : Prop :=
  (∃ p ∈ s.skipPrefixes, p <+: m.path) ∨
    (m.typ = FileType.directory ∧
      ∃ name, fileName m.path = some name ∧ name ∈ s.skipDirs)

/-- The soundness invariant of the refiner's bucket map: every member
recorded under a key has that key as its discriminator and comes from
the group being refined. -/
def BucketsOk (f : Meta → Option Disc) (g0 : List Meta)
    (bs : List (Disc × List Meta)) : Prop :=
  ∀ b ∈ bs, ∀ x ∈ b.2, f x = some b.1 ∧ x ∈ g0

/-! ## Concrete instances used by witnesses and counterexamples -/

/-- A 1-byte regular file at `a`. -/
def wmA : Meta := { path := ["a"], size := 1 }

/-- A 1-byte regular file at `b`. -/
def wmB : Meta := { path := ["b"], size := 1 }

/-- A 2-byte regular file at `c`. -/
def wmC : Meta := { path := ["c"], size := 2 }

/-- A directory at `d`. -/
def wDir : Meta := { path := ["d"], typ := FileType.directory }

/-- A second directory, at `d2`. -/
def wDir2 : Meta := { path := ["d2"], typ := FileType.directory }

/-- A regular file inside `d2`. -/
def wChild : Meta := { path := ["d2", "x"], size := 3 }

/-- A walker filesystem in which opening `d` fails, and `d2` yields one
good entry, then an entry error, then another good entry. -/
def wWalkFS : WalkFS := fun p =>
  if p = ["d"] then Except.error IOErrorKind.permissionDenied
  else if p = ["d2"] then
    Except.ok [Except.ok wChild, Except.error IOErrorKind.otherKind,
      Except.ok { path := ["d2", "y"], size := 4 }]
  else Except.ok []

/-- A symlink `l` pointing at the directory `d`. -/
def wLink : Meta := { path := ["l"], typ := FileType.symlink ["d"], ino := 1 }

/-- The directory `d` as a target with its own inode. -/
def wLinkDir : Meta := { path := ["d"], typ := FileType.directory, ino := 2 }

/-- A loops filesystem in which the symlink target `d` resolves to a
directory whose enumeration fails. -/
def wLoopsFS : LoopsFS :=
  { metaOf := fun p =>
      if p = ["d"] then Except.ok wLinkDir else Except.error IOErrorKind.notFound
    readDir := fun p =>
      if p = ["d"] then Except.error IOErrorKind.permissionDenied
      else Except.ok [] }

/-! # Theorems -/

/-! ## Ancestor lemmas -/

theorem ancestors_nil : ancestors ([] : Path) = [[]] := rfl

theorem ancestors_concat (xs : Path) (x : String) :
    ancestors (xs ++ [x]) = (xs ++ [x]) :: ancestors xs := by
  unfold ancestors
  rw [List.reverse_append]
  simp [List.tails]

theorem mem_ancestors {q p : Path} : q ∈ ancestors p ↔ q <+: p := by
  induction p using List.reverseRecOn with
  | nil => rw [ancestors_nil]; simp [List.prefix_nil]
  | append_singleton xs x ih =>
    rw [ancestors_concat]
    simp [ih, List.prefix_concat_iff]

theorem ancestors_nodup (p : Path) : (ancestors p).Nodup := by
  induction p using List.reverseRecOn with
  | nil => rw [ancestors_nil]; simp
  | append_singleton xs x ih =>
    rw [ancestors_concat]
    refine List.nodup_cons.mpr ⟨?_, ih⟩
    intro hmem
    have h := (mem_ancestors.mp hmem).length_le
    simp at h

theorem mem_strict_ancestors {q p : Path} :
    q ∈ (ancestors p).drop 1 ↔ q <+: p ∧ q ≠ p := by
  cases p using List.reverseRecOn with
  | nil =>
    rw [ancestors_nil]
    simp only [List.drop_succ_cons, List.drop_zero, List.prefix_nil]
    simp
  | append_singleton xs x =>
    rw [ancestors_concat, List.drop_succ_cons, List.drop_zero, mem_ancestors]
    constructor
    · intro h
      refine ⟨h.trans (List.prefix_append xs [x]), ?_⟩
      intro he
      have := h.length_le
      rw [he] at this
      simp at this
    · rintro ⟨hpre, hne⟩
      rcases List.prefix_concat_iff.mp hpre with h | h
      · exact absurd h hne
      · exact h

theorem strict_ancestors_nodup (p : Path) : ((ancestors p).drop 1).Nodup :=
  List.Nodup.sublist (List.drop_sublist 1 (ancestors p)) (ancestors_nodup p)

/-! ## Size-map lemmas -/

theorem lookupSize_addToDir (dirs : List (Path × Nat)) (dir : Path)
    (size : Nat) (d : Path) :
    lookupSize (addToDir dirs dir size) d =
      if d = dir then some ((lookupSize dirs d).getD 0 + size)
      else lookupSize dirs d := by
  induction dirs with
  | nil =>
    by_cases h : d = dir
    · subst h; simp [addToDir, lookupSize]
    · have h' : ¬dir = d := fun he => h he.symm
      simp [addToDir, lookupSize, h, h']
  | cons e rest ih =>
    obtain ⟨p, s⟩ := e
    by_cases h1 : p = dir
    · subst h1
      by_cases h2 : d = p
      · subst h2; simp [addToDir, lookupSize]
      · have h2' : ¬p = d := fun he => h2 he.symm
        simp [addToDir, lookupSize, h2, h2']
    · by_cases h2 : p = d
      · have hd : ¬d = dir := fun he => h1 (by rw [h2, he])
        simp [addToDir, lookupSize, h1, h2, hd]
      · simp [addToDir, lookupSize, h1, h2, ih]

theorem lookupSize_fold_addToDir (root : Path) (size : Nat) (d : Path) :
    ∀ (L : List Path), L.Nodup → ∀ (dirs : List (Path × Nat)),
      lookupSize
        (L.foldl
          (fun acc dir =>
            if pathStartsWith dir root then addToDir acc dir size else acc)
          dirs) d =
        if d ∈ L ∧ pathStartsWith d root = true
        then some ((lookupSize dirs d).getD 0 + size)
        else lookupSize dirs d := by
  intro L
  induction L with
  | nil => intro _ dirs; simp
  | cons l L ih =>
    intro hnd dirs
    obtain ⟨hl, hnd'⟩ := List.nodup_cons.mp hnd
    simp only [List.foldl_cons]
    by_cases hd : d = l
    · subst hd
      have hdL : d ∉ L := hl
      by_cases hs : pathStartsWith d root = true
      · rw [if_pos hs, ih hnd' (addToDir dirs d size),
          if_neg (by simp [hdL]), lookupSize_addToDir]
        simp [hs]
      · rw [if_neg hs, ih hnd' dirs, if_neg (by simp [hdL, hs]),
          if_neg (by simp [hs])]
    · by_cases hls : pathStartsWith l root = true
      · rw [if_pos hls, ih hnd' (addToDir dirs l size), lookupSize_addToDir,
          if_neg hd]
        by_cases hm : d ∈ L ∧ pathStartsWith d root = true
        · rw [if_pos hm, if_pos (by simp [hm.1, hm.2])]
        · rw [if_neg hm, if_neg (by simp only [List.mem_cons]; tauto)]
      · rw [if_neg hls, ih hnd' dirs]
        by_cases hm : d ∈ L ∧ pathStartsWith d root = true
        · rw [if_pos hm, if_pos (by simp [hm.1, hm.2])]
        · rw [if_neg hm, if_neg (by simp only [List.mem_cons]; tauto)]

theorem addFileSizes_lookup (root : Path) (dirs : List (Path × Nat))
    (file : Path) (size : Nat) (d : Path) :
    lookupSize (addFileSizes root dirs file size) d =
      if d <+: file ∧ d ≠ file ∧ pathStartsWith d root = true
      then some ((lookupSize dirs d).getD 0 + size)
      else lookupSize dirs d := by
  unfold addFileSizes
  rw [lookupSize_fold_addToDir root size d ((ancestors file).drop 1)
    (strict_ancestors_nodup file) dirs]
  by_cases hc : d <+: file ∧ d ≠ file ∧ pathStartsWith d root = true
  · rw [if_pos ⟨mem_strict_ancestors.mpr ⟨hc.1, hc.2.1⟩, hc.2.2⟩, if_pos hc]
  · rw [if_neg (by rw [mem_strict_ancestors]; tauto), if_neg hc]

theorem addFileSizes_getD (root : Path) (dirs : List (Path × Nat))
    (file : Path) (size : Nat) (d : Path) :
    (lookupSize (addFileSizes root dirs file size) d).getD 0 =
      (lookupSize dirs d).getD 0 +
        (if d <+: file ∧ d ≠ file ∧ pathStartsWith d root = true
         then size else 0) := by
  rw [addFileSizes_lookup]
  split
  · simp
  · simp

theorem addFileSizes_isSome (root : Path) (dirs : List (Path × Nat))
    (file : Path) (size : Nat) (d : Path) :
    (lookupSize (addFileSizes root dirs file size) d).isSome =
      ((lookupSize dirs d).isSome ||
        decide (d <+: file ∧ d ≠ file ∧ pathStartsWith d root = true)) := by
  rw [addFileSizes_lookup]
  split
  · simp [*]
  · simp [*]

theorem count_fold_getD (root d : Path) :
    ∀ (files : List (Path × Nat)) (dirs0 : List (Path × Nat)),
      (lookupSize
        (files.foldl (fun dirs f => addFileSizes root dirs f.1 f.2) dirs0)
        d).getD 0 =
        (lookupSize dirs0 d).getD 0 +
          ((files.filter
            (fun f =>
              decide (d <+: f.1 ∧ d ≠ f.1 ∧ pathStartsWith d root = true))).map
            Prod.snd).sum := by
  intro files
  induction files with
  | nil => intro dirs0; simp
  | cons f fs ih =>
    intro dirs0
    simp only [List.foldl_cons]
    rw [ih, addFileSizes_getD]
    by_cases hc : d <+: f.1 ∧ d ≠ f.1 ∧ pathStartsWith d root = true
    · simp [hc, List.filter_cons, Nat.add_assoc]
    · simp [hc, List.filter_cons]

theorem count_fold_isSome (root d : Path) :
    ∀ (files : List (Path × Nat)) (dirs0 : List (Path × Nat)),
      (lookupSize
        (files.foldl (fun dirs f => addFileSizes root dirs f.1 f.2) dirs0)
        d).isSome =
        ((lookupSize dirs0 d).isSome ||
          files.any
            (fun f =>
              decide (d <+: f.1 ∧ d ≠ f.1 ∧ pathStartsWith d root = true))) := by
  intro files
  induction files with
  | nil => intro dirs0; simp
  | cons f fs ih =>
    intro dirs0
    simp only [List.foldl_cons]
    rw [ih, addFileSizes_isSome]
    simp only [List.any_cons]
    cases (lookupSize dirs0 d).isSome <;> simp

/-- Claim C2: every directory in the map produced by `count_dir_sizes`
starts with the requested root, and its accumulated size is the sum of
the sizes of exactly those input files whose path it strictly
prefixes. -/
theorem count_dir_sizes_correct (files : List (Path × Nat)) (root d : Path)
    (sz : Nat) (h : lookupSize (count_dir_sizes files root) d = some sz) :
    pathStartsWith d root = true ∧
      sz = ((files.filter (fun f => decide (d <+: f.1 ∧ d ≠ f.1))).map
        Prod.snd).sum := by
  have hsome : (lookupSize (count_dir_sizes files root) d).isSome = true := by
    rw [h]; rfl
  rw [count_dir_sizes, count_fold_isSome] at hsome
  simp only [lookupSize, Option.isSome_none, Bool.false_or,
    List.any_eq_true] at hsome
  obtain ⟨f0, _, hf0⟩ := hsome
  have hroot : pathStartsWith d root = true := (of_decide_eq_true hf0).2.2
  refine ⟨hroot, ?_⟩
  have hg := count_fold_getD root d files []
  rw [← count_dir_sizes, h] at hg
  simp only [lookupSize, Option.getD_some, Option.getD_none, Nat.zero_add] at hg
  rw [hg]
  congr 1
  apply congrArg
  apply List.filter_congr
  intro x _
  by_cases hx : d <+: x.1 ∧ d ≠ x.1
  · simp [hx.1, hx.2, hroot]
  · simp only [decide_eq_decide]
    tauto

/-- Witness for C2 at a concrete file map. -/
theorem count_dir_sizes_correct_witness :
    pathStartsWith ["r", "a"] ["r"] = true ∧
      (15 : Nat) =
        (([(["r", "a", "f1"], 10), (["r", "a", "f2"], 5),
            (["x", "f3"], 7)].filter
          (fun f =>
            decide ((["r", "a"] : Path) <+: f.1 ∧ (["r", "a"] : Path) ≠ f.1))).map
          Prod.snd).sum :=
  count_dir_sizes_correct
    [(["r", "a", "f1"], 10), (["r", "a", "f2"], 5), (["x", "f3"], 7)]
    ["r"] ["r", "a"] 15 (by decide)

/-! ## Refiner lemmas -/

theorem insertBucket_ok {f : Meta → Option Disc} {g0 : List Meta}
    {d : Disc} {m : Meta} (hm : f m = some d) (hmg : m ∈ g0) :
    ∀ (bs : List (Disc × List Meta)), BucketsOk f g0 bs →
      BucketsOk f g0 (insertBucket bs d m) := by
  intro bs
  induction bs with
  | nil =>
    intro _ b hb x hx
    simp only [insertBucket, List.mem_singleton] at hb
    subst hb
    simp only [List.mem_singleton] at hx
    subst hx
    exact ⟨hm, hmg⟩
  | cons e rest ih =>
    obtain ⟨d0, ms⟩ := e
    intro h b hb x hx
    have hhead : ∀ y ∈ ms, f y = some d0 ∧ y ∈ g0 :=
      fun y hy => h (d0, ms) (List.mem_cons_self _ _) y hy
    have hrest : BucketsOk f g0 rest :=
      fun b hb x hx => h b (List.mem_cons_of_mem _ hb) x hx
    simp only [insertBucket] at hb
    by_cases hd : d0 = d
    · rw [if_pos hd] at hb
      rcases List.mem_cons.mp hb with rfl | hb
      · rcases List.mem_append.mp hx with hx | hx
        · exact hhead x hx
        · simp only [List.mem_singleton] at hx
          subst hx
          exact ⟨hd ▸ hm, hmg⟩
      · exact hrest b hb x hx
    · rw [if_neg hd] at hb
      rcases List.mem_cons.mp hb with rfl | hb
      · exact hhead x hx
      · exact ih hrest b hb x hx

theorem foldl_insertBucket_ok {f : Meta → Option Disc} {g0 : List Meta} :
    ∀ (pairs : List (Disc × Meta)) (bs : List (Disc × List Meta)),
      (∀ p ∈ pairs, f p.2 = some p.1 ∧ p.2 ∈ g0) → BucketsOk f g0 bs →
      BucketsOk f g0
        (pairs.foldl (fun acc p => insertBucket acc p.1 p.2) bs) := by
  intro pairs
  induction pairs with
  | nil => intro bs _ hbs; simpa using hbs
  | cons p ps ih =>
    intro bs hp hbs
    simp only [List.foldl_cons]
    have hph := hp p (List.mem_cons_self _ _)
    exact ih (insertBucket bs p.1 p.2)
      (fun q hq => hp q (List.mem_cons_of_mem _ hq))
      (insertBucket_ok hph.1 hph.2 bs hbs)

theorem refineGroup_mem {f : Meta → Option Disc} {g0 g : List Meta}
    (hg : g ∈ refineGroup f g0) :
    1 < g.length ∧ (∃ d, ∀ x ∈ g, f x = some d) ∧ ∀ x ∈ g, x ∈ g0 := by
  unfold refineGroup at hg
  simp only [List.mem_filter, List.mem_map, decide_eq_true_eq] at hg
  obtain ⟨⟨b, hb, hbg⟩, hlen⟩ := hg
  have hpairs : ∀ p ∈ g0.filterMap
      (fun m => (f m).map (fun d => (d, m))),
      f p.2 = some p.1 ∧ p.2 ∈ g0 := by
    intro p hp
    rw [List.mem_filterMap] at hp
    obtain ⟨m, hm, hfm⟩ := hp
    cases hf : f m with
    | none => simp [hf] at hfm
    | some d0 =>
      rw [hf] at hfm
      simp only [Option.map_some'] at hfm
      injection hfm with hfm
      subst hfm
      exact ⟨hf, hm⟩
  have hok : BucketsOk f g0
      ((g0.filterMap (fun m => (f m).map (fun d => (d, m)))).foldl
        (fun acc p => insertBucket acc p.1 p.2) []) :=
    foldl_insertBucket_ok _ [] hpairs (by intro b hb; simp at hb)
  have hb2 := hok b hb
  subst hbg
  exact ⟨hlen, ⟨b.1, fun x hx => (hb2 x hx).1⟩, fun x hx => (hb2 x hx).2⟩

theorem refine_mem {gs : List (List Meta)} {f : Meta → Option Disc}
    {g : List Meta} (hg : g ∈ refine gs f) :
    ∃ g0 ∈ gs, 1 < g.length ∧ (∃ d, ∀ x ∈ g, f x = some d) ∧
      ∀ x ∈ g, x ∈ g0 := by
  unfold refine at hg
  rw [List.mem_flatten] at hg
  obtain ⟨l, hl, hgl⟩ := hg
  rw [List.mem_map] at hl
  obtain ⟨g0, hg0, rfl⟩ := hl
  exact ⟨g0, hg0, refineGroup_mem hgl⟩

theorem refineAll_subset {g : List Meta} :
    ∀ (passes : List (Meta → Option Disc)) (gs : List (List Meta)),
      g ∈ refineAll gs passes → ∃ g0 ∈ gs, ∀ x ∈ g, x ∈ g0 := by
  intro passes
  induction passes with
  | nil => intro gs hg; exact ⟨g, hg, fun x hx => hx⟩
  | cons f ps ih =>
    intro gs hg
    obtain ⟨g1, hg1, hsub1⟩ := ih (refine gs f) hg
    obtain ⟨g0, hg0, _, _, hsub0⟩ := refine_mem hg1
    exact ⟨g0, hg0, fun x hx => hsub0 x (hsub1 x hx)⟩

/-- Claim C1: after any non-empty pipeline of refiner passes, every
emitted group has at least two members, the members of one group share
a (successfully computed) discriminator for every pass applied, and
each group is included in one of the input groups. -/
theorem refiner_groups_invariant (gs : List (List Meta))
    (passes : List (Meta → Option Disc)) (g : List Meta)
    (hne : passes ≠ []) (hg : g ∈ refineAll gs passes) :
    2 ≤ g.length ∧
      (∀ f ∈ passes, ∃ d, ∀ x ∈ g, f x = some d) ∧
      ∃ g0 ∈ gs, ∀ x ∈ g, x ∈ g0 := by
  refine ⟨?_, ?_, refineAll_subset passes gs hg⟩
  · rcases List.eq_nil_or_concat passes with rfl | ⟨L, f, rfl⟩
    · exact absurd rfl hne
    · rw [refineAll, List.concat_eq_append, List.foldl_append,
        List.foldl_cons, List.foldl_nil] at hg
      obtain ⟨_, _, hlen, _⟩ := refine_mem hg
      exact hlen
  · intro f hf
    obtain ⟨pre, post, rfl⟩ := List.append_of_mem hf
    rw [refineAll, List.foldl_append, List.foldl_cons] at hg
    obtain ⟨g1, hg1, hsub⟩ :=
      refineAll_subset post (refine (List.foldl refine gs pre) f) hg
    obtain ⟨_, _, _, ⟨d, hd⟩, _⟩ := refine_mem hg1
    exact ⟨d, fun x hx => hd x (hsub x hx)⟩

/-- Witness for C1: one size pass on three files of sizes 1, 1, 2. -/
theorem refiner_groups_invariant_witness :
    2 ≤ ([wmA, wmB] : List Meta).length ∧
      (∀ f ∈ [sizeGrouper], ∃ d, ∀ x ∈ [wmA, wmB], f x = some d) ∧
      ∃ g0 ∈ [[wmA, wmB, wmC]], ∀ x ∈ [wmA, wmB], x ∈ g0 :=
  refiner_groups_invariant [[wmA, wmB, wmC]] [sizeGrouper] [wmA, wmB]
    (by simp) (by decide)

/-! ## Read-loop lemmas -/

theorem listWrite_fill (w : List Nat) (z : Nat) (d : List Nat)
    (hd : d.length ≤ z) :
    listWrite (w ++ List.replicate z 0) w.length d =
      (w ++ d) ++ List.replicate (z - d.length) 0 := by
  unfold listWrite
  have hlen : (w ++ List.replicate z 0).length = w.length + z := by simp
  have h2 : d.take ((w ++ List.replicate z 0).length - w.length) = d := by
    rw [hlen]
    have hz : w.length + z - w.length = z := by omega
    rw [hz]
    exact List.take_of_length_le hd
  have h3 : (w ++ List.replicate z 0).drop (w.length + d.length) =
      List.replicate (z - d.length) 0 := by
    rw [← List.drop_drop, List.drop_left, List.drop_replicate]
  simp only [h2, List.take_left, h3, List.append_assoc]

theorem readLoop_ok_chars (amount : Nat) :
    ∀ (events : List ReadEvent) (rt : Nat) (w : List Nat) (out : List Nat),
      w.length = rt → rt ≤ amount →
      readLoop amount events (w ++ List.replicate (amount - rt) 0) rt =
        some (Except.ok out) →
      (readBytes amount events rt).length ≤ amount - rt ∧
      out = (w ++ readBytes amount events rt) ++
        List.replicate (amount - rt - (readBytes amount events rt).length)
          0 := by
  intro events
  induction events with
  | nil =>
    intro rt w out hw hrt hres
    by_cases hge : amount ≤ rt
    · have hr0 : amount - rt = 0 := by omega
      simp only [readLoop, if_pos hge, Option.some.injEq,
        Except.ok.injEq] at hres
      subst hres
      simp [readBytes, hr0]
    · simp [readLoop, hge] at hres
  | cons ev rest ih =>
    intro rt w out hw hrt hres
    by_cases hge : amount ≤ rt
    · have hr0 : amount - rt = 0 := by omega
      have heq : readLoop amount (ev :: rest)
          (w ++ List.replicate (amount - rt) 0) rt =
          some (Except.ok (w ++ List.replicate (amount - rt) 0)) := by
        cases ev with
        | chunk data => cases data <;> simp [readLoop, hge]
        | fail e => cases e <;> simp [readLoop, hge]
      rw [heq] at hres
      simp only [Option.some.injEq, Except.ok.injEq] at hres
      subst hres
      simp [readBytes, hge, hr0]
    · cases ev with
      | chunk data =>
        cases data with
        | nil =>
          simp only [readLoop, if_neg hge, Option.some.injEq,
            Except.ok.injEq] at hres
          subst hres
          refine ⟨by simp [readBytes, hge], ?_⟩
          simp [readBytes, hge]
        | cons b bs =>
          simp only [readLoop, if_neg hge] at hres
          set d := (b :: bs).take (amount - rt) with hd
          have hdlen : d.length ≤ amount - rt := by
            rw [hd]; simp [List.length_take]
          have hfill : listWrite (w ++ List.replicate (amount - rt) 0) rt d =
              (w ++ d) ++ List.replicate (amount - rt - d.length) 0 := by
            have hf := listWrite_fill w (amount - rt) d hdlen
            rw [hw] at hf
            exact hf
          have harith : amount - rt - d.length = amount - (rt + d.length) := by
            omega
          rw [hfill, harith] at hres
          have hw2 : (w ++ d).length = rt + d.length := by simp [hw]
          have hrt2 : rt + d.length ≤ amount := by omega
          obtain ⟨hlen2, hout⟩ := ih (rt + d.length) (w ++ d) out hw2 hrt2 hres
          have hrb : readBytes amount (ReadEvent.chunk (b :: bs) :: rest) rt =
              d ++ readBytes amount rest (rt + d.length) := by
            simp only [readBytes, if_neg hge]
          rw [hrb]
          constructor
          · simp only [List.length_append]
            omega
          · rw [hout]
            have hc : amount - (rt + d.length) -
                (readBytes amount rest (rt + d.length)).length =
                amount - rt -
                  (d ++ readBytes amount rest (rt + d.length)).length := by
              simp only [List.length_append]
              omega
            rw [hc, List.append_assoc w d]
      | fail e =>
        cases e with
        | interrupted =>
          simp only [readLoop, if_neg hge] at hres
          obtain ⟨hlen2, hout⟩ := ih rt w out hw hrt hres
          have hrb : readBytes amount
              (ReadEvent.fail IOErrorKind.interrupted :: rest) rt =
              readBytes amount rest rt := by
            simp only [readBytes, if_neg hge]
          rw [hrb]
          exact ⟨hlen2, hout⟩
        | notFound => simp [readLoop, hge] at hres
        | permissionDenied => simp [readLoop, hge] at hres
        | otherKind => simp [readLoop, hge] at hres

/-- Claim C9: for a positive sample size, `read_mid` seeks to exactly
`size / sample_size / 2` and requests `min(size, sample_size)` bytes;
a successful read returns a buffer of exactly that length whose prefix
is the bytes the schedule delivered and whose remaining tail — present
exactly when EOF arrived before the amount was filled — is zero
padding. -/
theorem read_mid_spec (m : Meta) (s : Nat) (events : List ReadEvent)
    (buf : List Nat) (hs : 0 < s)
    (hok : read_mid m s events = some (Except.ok buf)) :
    readMidCall m s = some (m.size / s / 2, sampleAmount m.size s) ∧
      buf.length = sampleAmount m.size s ∧
      buf = readBytes (sampleAmount m.size s) events 0 ++
        List.replicate
          (sampleAmount m.size s -
            (readBytes (sampleAmount m.size s) events 0).length) 0 := by
  have hs0 : s ≠ 0 := Nat.pos_iff_ne_zero.mp hs
  have hcall : readMidCall m s =
      some (m.size / s / 2, sampleAmount m.size s) := by
    simp [readMidCall, readMidOffset, hs0]
  refine ⟨hcall, ?_⟩
  unfold read_mid at hok
  rw [hcall] at hok
  unfold readAt at hok
  dsimp only at hok
  have h0 : (List.replicate (sampleAmount m.size s) 0 : List Nat) =
      [] ++ List.replicate (sampleAmount m.size s - 0) 0 := by simp
  rw [h0] at hok
  obtain ⟨hlen, hout⟩ := readLoop_ok_chars (sampleAmount m.size s) events 0
    [] buf rfl (Nat.zero_le _) hok
  simp only [List.nil_append, Nat.sub_zero] at hlen hout
  refine ⟨?_, hout⟩
  rw [hout]
  simp only [List.length_append, List.length_replicate]
  omega

/-- Witness for C9: size 10, sample 4, two delivered bytes then EOF
(so the delivered prefix is `[9, 9]` and the tail two zero bytes). -/
theorem read_mid_spec_witness :
    readMidCall { size := 10 } 4 =
        some (({ size := 10 } : Meta).size / 4 / 2, sampleAmount 10 4) ∧
      ([9, 9, 0, 0] : List Nat).length = sampleAmount 10 4 ∧
      ([9, 9, 0, 0] : List Nat) =
        readBytes (sampleAmount 10 4)
            [ReadEvent.chunk [9, 9], ReadEvent.chunk []] 0 ++
          List.replicate
            (sampleAmount 10 4 -
              (readBytes (sampleAmount 10 4)
                [ReadEvent.chunk [9, 9], ReadEvent.chunk []] 0).length) 0 :=
  read_mid_spec { size := 10 } 4
    [ReadEvent.chunk [9, 9], ReadEvent.chunk []] [9, 9, 0, 0]
    (by decide) (by decide)

/-- Claim C10: the mid-sample offset divides by the sample size, so a
sample size of zero is a division-by-zero panic for every file (no
mid-sample is produced), while any positive sample size computes the
offset and amount. -/
theorem read_mid_zero_sample (m : Meta) (s : Nat) (events : List ReadEvent)
    (hs : 0 < s) :
    readMidCall m 0 = none ∧ read_mid m 0 events = none ∧
      readMidCall m s = some (m.size / s / 2, sampleAmount m.size s) := by
  have h0 : readMidCall m 0 = none := by
    simp [readMidCall, readMidOffset]
  refine ⟨h0, ?_, ?_⟩
  · rw [read_mid, h0]
  · simp [readMidCall, readMidOffset, Nat.pos_iff_ne_zero.mp hs]

/-- Witness for C10 at the CLI default sample size 8192 and an
arbitrary file of size 10. -/
theorem read_mid_zero_sample_witness :
    readMidCall { size := 10 } 0 = none ∧
      read_mid { size := 10 } 0 [] = none ∧
      readMidCall { size := 10 } 8192 =
        some (({ size := 10 } : Meta).size / 8192 / 2, sampleAmount 10 8192) :=
  read_mid_zero_sample { size := 10 } 8192 [] (by decide)

/-! ## Hasher lemmas -/

theorem hashLoop_feed (cs : Nat) :
    ∀ (pre : List (List Nat)) (rest : List ReadEvent) (acc : List Nat),
      (∀ d ∈ pre, d ≠ []) →
      hashLoop cs (pre.map ReadEvent.chunk ++ rest) acc =
        hashLoop cs rest (acc ++ (pre.map (fun d => d.take cs)).flatten) := by
  intro pre
  induction pre with
  | nil => intro rest acc _; simp
  | cons d ds ih =>
    intro rest acc h
    have hd : d ≠ [] := h d (List.mem_cons_self _ _)
    match d, hd with
    | b :: bs, _ =>
      simp only [List.map_cons, List.cons_append, List.flatten_cons, hashLoop,
        List.append_eq]
      rw [ih rest (acc ++ (b :: bs).take cs)
        (fun q hq => h q (List.mem_cons_of_mem _ hq))]
      rw [List.append_assoc]

/-- Counterexample to C3: an interrupted first read makes all three
hash functions fail with the interrupted error instead of retrying and
completing the digest; the sampler `read` of `dups.rs`, by contrast,
retries the same schedule and completes. -/
theorem hash_interrupted_fails_cex :
    xxh 8192 [ReadEvent.fail IOErrorKind.interrupted, ReadEvent.chunk [1],
        ReadEvent.chunk []] =
      some (Except.error IOErrorKind.interrupted) ∧
    blake3 8192 [ReadEvent.fail IOErrorKind.interrupted, ReadEvent.chunk [1],
        ReadEvent.chunk []] =
      some (Except.error IOErrorKind.interrupted) ∧
    sha2_512 8192 [ReadEvent.fail IOErrorKind.interrupted,
        ReadEvent.chunk [1], ReadEvent.chunk []] =
      some (Except.error IOErrorKind.interrupted) ∧
    readAt [ReadEvent.fail IOErrorKind.interrupted, ReadEvent.chunk [1]] 1 =
      some (Except.ok [1]) := by
  refine ⟨rfl, rfl, rfl, by decide⟩

/-- Amended C3: the three streaming hash functions do not retry
interrupted reads; any read error, interrupted included, fails the
digest, and the digest completes exactly when every read succeeds
through EOF, having been fed the delivered chunks. -/
theorem hash_error_propagation (cs : Nat) (pre : List (List Nat))
    (e : IOErrorKind) (tail : List ReadEvent) (h : ∀ d ∈ pre, d ≠ []) :
    (xxh cs (pre.map ReadEvent.chunk ++ ReadEvent.fail e :: tail) =
        some (Except.error e) ∧
      blake3 cs (pre.map ReadEvent.chunk ++ ReadEvent.fail e :: tail) =
        some (Except.error e) ∧
      sha2_512 cs (pre.map ReadEvent.chunk ++ ReadEvent.fail e :: tail) =
        some (Except.error e)) ∧
    (xxh cs (pre.map ReadEvent.chunk ++ [ReadEvent.chunk []]) =
        some (Except.ok ((pre.map (fun d => d.take cs)).flatten)) ∧
      blake3 cs (pre.map ReadEvent.chunk ++ [ReadEvent.chunk []]) =
        some (Except.ok ((pre.map (fun d => d.take cs)).flatten)) ∧
      sha2_512 cs (pre.map ReadEvent.chunk ++ [ReadEvent.chunk []]) =
        some (Except.ok ((pre.map (fun d => d.take cs)).flatten))) := by
  have he : hashLoop cs (pre.map ReadEvent.chunk ++ ReadEvent.fail e :: tail)
      [] = some (Except.error e) := by
    rw [hashLoop_feed cs pre _ [] h]
    simp [hashLoop]
  have hok : hashLoop cs (pre.map ReadEvent.chunk ++ [ReadEvent.chunk []])
      [] = some (Except.ok ((pre.map (fun d => d.take cs)).flatten)) := by
    rw [hashLoop_feed cs pre _ [] h]
    simp [hashLoop]
  exact ⟨⟨he, he, he⟩, ⟨hok, hok, hok⟩⟩

/-- Witness for the amended C3: one good chunk, then an interrupted
read (error case) or EOF (success case). -/
theorem hash_error_propagation_witness :
    (xxh 4 ([[1, 2]].map ReadEvent.chunk ++
          ReadEvent.fail IOErrorKind.interrupted :: []) =
        some (Except.error IOErrorKind.interrupted) ∧
      blake3 4 ([[1, 2]].map ReadEvent.chunk ++
          ReadEvent.fail IOErrorKind.interrupted :: []) =
        some (Except.error IOErrorKind.interrupted) ∧
      sha2_512 4 ([[1, 2]].map ReadEvent.chunk ++
          ReadEvent.fail IOErrorKind.interrupted :: []) =
        some (Except.error IOErrorKind.interrupted)) ∧
    (xxh 4 ([[1, 2]].map ReadEvent.chunk ++ [ReadEvent.chunk []]) =
        some (Except.ok (([[1, 2]].map (fun d => d.take 4)).flatten)) ∧
      blake3 4 ([[1, 2]].map ReadEvent.chunk ++ [ReadEvent.chunk []]) =
        some (Except.ok (([[1, 2]].map (fun d => d.take 4)).flatten)) ∧
      sha2_512 4 ([[1, 2]].map ReadEvent.chunk ++ [ReadEvent.chunk []]) =
        some (Except.ok (([[1, 2]].map (fun d => d.take 4)).flatten))) :=
  hash_error_propagation 4 [[1, 2]] IOErrorKind.interrupted [] (by decide)

/-! ## Dangling-link probe -/

/-- Claim C8: a symlink from the scan is reported by `dang` iff its
source path canonicalizes to a not-found error; successful
canonicalization or any other error kind is never reported. -/
theorem dangling_symlinks_spec (stream : List (Except IOErrorKind Meta))
    (canon : Path → Except IOErrorKind Path) (src dst : Path) :
    (src, dst) ∈ dangling_symlinks stream canon ↔
      ((∃ m : Meta, Except.ok m ∈ stream ∧ m.path = src ∧
          m.typ = FileType.symlink dst) ∧
        canon src = Except.error IOErrorKind.notFound) := by
  unfold dangling_symlinks
  rw [List.mem_filter, List.mem_filterMap]
  constructor
  · rintro ⟨⟨r, hr, hfr⟩, hpred⟩
    match r with
    | Except.error e => simp at hfr
    | Except.ok m =>
      refine ⟨⟨m, hr, ?_⟩, ?_⟩
      · cases hty : m.typ <;> simp [hty] at hfr
        case symlink dst' =>
          exact ⟨hfr.1, by rw [hfr.2]⟩
      · simp only at hpred
        cases hc : canon src with
        | ok q => rw [hc] at hpred; simp at hpred
        | error k =>
          cases k with
          | notFound => rfl
          | interrupted => rw [hc] at hpred; simp at hpred
          | permissionDenied => rw [hc] at hpred; simp at hpred
          | otherKind => rw [hc] at hpred; simp at hpred
  · rintro ⟨⟨m, hm, hpath, hty⟩, hcanon⟩
    refine ⟨⟨Except.ok m, hm, by simp [hty, hpath]⟩, ?_⟩
    simp [hcanon]

/-! ## dups report separators -/

/-- Claim C5 is a code bug: with `-Z`, each record is terminated by a
NUL, but each group is terminated by `println!()`, a linefeed, not by a
second NUL; the `-Z` output therefore still contains newlines. -/
theorem dups_null_sep_group_newline :
    dupsOutput renderPath true [[wmA, wmB], [wmC, wmC]] =
      "a\x00b\x00\nc\x00c\x00\n" ∧
    dupsSep true = "\x00" ∧
    '\n' ∈ (dupsOutput renderPath true [[wmA, wmB], [wmC, wmC]]).toList ∧
    dupsOutput renderPath false [[wmA, wmB], [wmC, wmC]] =
      "a\nb\n\nc\nc\n\n" := by
  refine ⟨by decide, by decide, by decide, by decide⟩

/-! ## Walker lemmas -/

theorem is_directory_eq {m : Meta} :
    m.is_directory = true ↔ m.typ = FileType.directory := by
  cases hty : m.typ <;> simp [Meta.is_directory, hty]

theorem estOmittendus_update (s : FindState) (fr : List Meta) (m : Meta) :
    estOmittendus { s with frontier := fr } m = estOmittendus s m := rfl

theorem pushEntries_fst_ok (s : FindState) :
    ∀ (entries : List (Except IOErrorKind Meta)) (fr : List Meta),
      (∀ x ∈ fr, estOmittendus s x = false) →
      ∀ x ∈ (pushEntries s fr entries).1, estOmittendus s x = false := by
  intro entries
  induction entries with
  | nil => intro fr h; simpa [pushEntries] using h
  | cons e rest ih =>
    intro fr h x hx
    match e with
    | Except.error err =>
      simp only [pushEntries] at hx
      exact h x hx
    | Except.ok m =>
      simp only [pushEntries] at hx
      by_cases hm : estOmittendus s m = true
      · simp only [if_pos hm] at hx
        exact ih fr h x hx
      · simp only [if_neg hm] at hx
        refine ih (m :: fr) ?_ x hx
        intro y hy
        rcases List.mem_cons.mp hy with rfl | hy
        · simpa using hm
        · exact h y hy

theorem findRun_ok (fs : WalkFS) :
    ∀ (fuel : Nat) (s : FindState),
      (∀ x ∈ s.frontier, estOmittendus s x = false) →
      ∀ m, Except.ok m ∈ findRun fs s fuel → estOmittendus s m = false := by
  intro fuel
  induction fuel with
  | zero => intro s _ m hm; simp [findRun] at hm
  | succ n ih =>
    intro s hfr m hm
    cases hsf : s.frontier with
    | nil =>
      rw [findRun] at hm
      simp [findNext, hsf] at hm
    | cons meta rest =>
      have hmeta : estOmittendus s meta = false :=
        hfr meta (by rw [hsf]; exact List.mem_cons_self _ _)
      have hrest : ∀ x ∈ rest, estOmittendus s x = false := fun x hx =>
        hfr x (by rw [hsf]; exact List.mem_cons_of_mem _ hx)
      rw [findRun] at hm
      cases hdir : meta.is_directory with
      | false =>
        simp only [findNext, hsf, hdir, Bool.false_eq_true, if_false] at hm
        rcases List.mem_cons.mp hm with heq | hm
        · injection heq with heq
          subst heq
          exact hmeta
        · have := ih { s with frontier := rest }
            (by simpa [estOmittendus_update] using hrest) m hm
          simpa [estOmittendus_update] using this
      | true =>
        cases hlist : fs meta.path with
        | error e =>
          simp only [findNext, hsf, hdir, if_true, hlist] at hm
          rcases List.mem_cons.mp hm with heq | hm
          · exact absurd heq (by simp)
          · have := ih { s with frontier := rest }
              (by simpa [estOmittendus_update] using hrest) m hm
            simpa [estOmittendus_update] using this
        | ok entries =>
          have hpush := pushEntries_fst_ok s entries rest hrest
          cases hpe : pushEntries s rest entries with
          | mk fr errOpt =>
            rw [hpe] at hpush
            cases errOpt with
            | some e =>
              simp only [findNext, hsf, hdir, if_true, hlist, hpe] at hm
              rcases List.mem_cons.mp hm with heq | hm
              · exact absurd heq (by simp)
              · have := ih { s with frontier := fr }
                  (by simpa [estOmittendus_update] using hpush) m hm
                simpa [estOmittendus_update] using this
            | none =>
              simp only [findNext, hsf, hdir, if_true, hlist, hpe] at hm
              rcases List.mem_cons.mp hm with heq | hm
              · injection heq with heq
                subst heq
                exact hmeta
              · have := ih { s with frontier := fr }
                  (by simpa [estOmittendus_update] using hpush) m hm
                simpa [estOmittendus_update] using this

/-- Claim C7: the skip rule matches the spec's two-rule description —
prefix rule for every entry, name rule only for directories — and every
`Meta` the walker yields from a well-formed state passes the rules, so
no yielded path matches a skip-prefix and no yielded directory carries
a skipped base-name. -/
theorem est_omittendus_spec (s : FindState) (m : Meta) (fs : WalkFS)
    (fuel : Nat) (m' : Meta)
    (hfr : ∀ x ∈ s.frontier, estOmittendus s x = false)
    (hyld : Except.ok m' ∈ findRun fs s fuel) :
    (estOmittendus s m = true ↔ specOmitted s m) ∧
    (m.is_directory = false →
      estOmittendus s m = estOmittendusPraefixo s m.path) ∧
    estOmittendusPraefixo s m'.path = false ∧
    (m'.is_directory = true → ∀ name, fileName m'.path = some name →
      name ∉ s.skipDirs) := by
  have hiff : ∀ mm : Meta, estOmittendus s mm = true ↔ specOmitted s mm := by
    intro mm
    unfold estOmittendus specOmitted estOmittendusPraefixo estOmittendusNomine
    simp only [Bool.or_eq_true, Bool.and_eq_true, List.any_eq_true,
      pathStartsWith, List.isPrefixOf_iff_prefix, is_directory_eq]
    cases hfn : fileName mm.path with
    | none => simp [hfn]
    | some name0 =>
      simp only [hfn, Option.map_some', Option.getD_some, Option.some.injEq]
      constructor
      · rintro (h | ⟨hd, hc⟩)
        · exact Or.inl h
        · refine Or.inr ⟨hd, name0, rfl, ?_⟩
          simpa using hc
      · rintro (h | ⟨hd, name, hne, hmem⟩)
        · exact Or.inl h
        · refine Or.inr ⟨hd, ?_⟩
          subst hne
          simpa using hmem
  have hm' : estOmittendus s m' = false := findRun_ok fs fuel s hfr m' hyld
  have hsplit : estOmittendusPraefixo s m'.path = false ∧
      (m'.is_directory &&
        ((fileName m'.path).map (fun n => estOmittendusNomine s n)).getD
          false) = false := by
    have h := hm'
    unfold estOmittendus at h
    exact ⟨by
        cases hp : estOmittendusPraefixo s m'.path
        · rfl
        · rw [hp] at h; simp at h,
      by
        cases hq : (m'.is_directory &&
            ((fileName m'.path).map (fun n => estOmittendusNomine s n)).getD
              false)
        · rfl
        · rw [hq] at h; simp at h⟩
  refine ⟨hiff m, ?_, hsplit.1, ?_⟩
  · intro hnd
    unfold estOmittendus
    rw [hnd]
    simp
  · intro hdir name hname hmem
    have h2 := hsplit.2
    rw [hdir, hname] at h2
    simp only [Bool.true_and, Option.map_some', Option.getD_some] at h2
    unfold estOmittendusNomine at h2
    rw [List.contains_eq_any_beq] at h2
    simp only [List.any_eq_false] at h2
    have := h2 name hmem
    simp at this

/-- Witness for C7: a directory root with one yielded child, skip rules
with one name and one prefix, and a probe `Meta` that the name rule
matches. -/
theorem est_omittendus_spec_witness :
    (estOmittendus (findNew wDir2 ["n"] [["p"]])
        { path := ["a", "n"], typ := FileType.directory } = true ↔
      specOmitted (findNew wDir2 ["n"] [["p"]])
        { path := ["a", "n"], typ := FileType.directory }) ∧
    (({ path := ["a", "n"], typ := FileType.directory } : Meta).is_directory
        = false →
      estOmittendus (findNew wDir2 ["n"] [["p"]])
          { path := ["a", "n"], typ := FileType.directory } =
        estOmittendusPraefixo (findNew wDir2 ["n"] [["p"]])
          ({ path := ["a", "n"], typ := FileType.directory } : Meta).path) ∧
    estOmittendusPraefixo (findNew wDir2 ["n"] [["p"]]) wChild.path = false ∧
    (wChild.is_directory = true → ∀ name, fileName wChild.path = some name →
      name ∉ (findNew wDir2 ["n"] [["p"]]).skipDirs) :=
  est_omittendus_spec (findNew wDir2 ["n"] [["p"]])
    { path := ["a", "n"], typ := FileType.directory } wWalkFS 10 wChild
    (by decide) (by decide)

/-! ## Walker error-step behavior (C6) -/

/-- Counterexample to C6: when enumerating the popped directory fails,
the error is yielded and the directory's `Meta` is never yielded — the
whole run of the walker over a one-directory tree whose `read_dir`
fails consists of the error item alone. -/
theorem find_next_drops_meta_cex :
    findRun wWalkFS (findNew wDir [] []) 10 =
      [Except.error IOErrorKind.permissionDenied] ∧
    Except.ok wDir ∉ findRun wWalkFS (findNew wDir [] []) 10 := by
  refine ⟨by decide, by decide⟩

/-- Amended C6: the popped `Meta` is yielded only when it is not a
directory or its enumeration completes; if opening the directory fails,
or one of its entries fails, the error is yielded in place of the popped
`Meta` (which is dropped), the entries pushed before the failure stay on
the frontier while that directory's remaining entries are lost, and in
either case the walker continues from the resulting frontier rather
than aborting. -/
theorem find_next_error_in_place (fs : WalkFS) (s : FindState) (meta : Meta)
    (rest : List Meta) (e : IOErrorKind) (fuel : Nat)
    (s2 : FindState) (meta2 : Meta) (rest2 : List Meta)
    (entries2 : List (Except IOErrorKind Meta)) (fr2 : List Meta)
    (e2 : IOErrorKind)
    (hfr : s.frontier = meta :: rest)
    (hdir : meta.is_directory = true)
    (herr : fs meta.path = Except.error e)
    (hfr2 : s2.frontier = meta2 :: rest2)
    (hdir2 : meta2.is_directory = true)
    (hok2 : fs meta2.path = Except.ok entries2)
    (hpush2 : pushEntries s2 rest2 entries2 = (fr2, some e2)) :
    findNext fs s = (some (Except.error e), { s with frontier := rest }) ∧
    findRun fs s (fuel + 1) =
      Except.error e :: findRun fs { s with frontier := rest } fuel ∧
    findNext fs s2 = (some (Except.error e2), { s2 with frontier := fr2 }) ∧
    findRun fs s2 (fuel + 1) =
      Except.error e2 :: findRun fs { s2 with frontier := fr2 } fuel := by
  have h1 : findNext fs s =
      (some (Except.error e), { s with frontier := rest }) := by
    simp [findNext, hfr, hdir, herr]
  have h2 : findNext fs s2 =
      (some (Except.error e2), { s2 with frontier := fr2 }) := by
    simp [findNext, hfr2, hdir2, hok2, hpush2]
  refine ⟨h1, ?_, h2, ?_⟩
  · rw [findRun, h1]
  · rw [findRun, h2]

/-- Witness for the amended C6: opening `d` fails; `d2` enumerates one
good entry, then an entry error (losing the rest). -/
theorem find_next_error_in_place_witness :
    findNext wWalkFS (findNew wDir [] []) =
      (some (Except.error IOErrorKind.permissionDenied),
        { findNew wDir [] [] with frontier := [] }) ∧
    findRun wWalkFS (findNew wDir [] []) (3 + 1) =
      Except.error IOErrorKind.permissionDenied ::
        findRun wWalkFS { findNew wDir [] [] with frontier := [] } 3 ∧
    findNext wWalkFS (findNew wDir2 [] []) =
      (some (Except.error IOErrorKind.otherKind),
        { findNew wDir2 [] [] with frontier := [wChild] }) ∧
    findRun wWalkFS (findNew wDir2 [] []) (3 + 1) =
      Except.error IOErrorKind.otherKind ::
        findRun wWalkFS { findNew wDir2 [] [] with frontier := [wChild] } 3 :=
  find_next_error_in_place wWalkFS (findNew wDir [] []) wDir []
    IOErrorKind.permissionDenied 3 (findNew wDir2 [] []) wDir2 []
    [Except.ok wChild, Except.error IOErrorKind.otherKind,
      Except.ok { path := ["d2", "y"], size := 4 }]
    [wChild] IOErrorKind.otherKind
    (by decide) (by decide) (by decide) (by decide) (by decide) (by decide)
    (by decide)

/-! ## loops error propagation (C4) -/

/-- Counterexample to C4: `loops` over a stream holding one symlink to a
directory whose enumeration fails aborts with that error instead of
skipping the item and completing. -/
theorem loops_dir_error_cex :
    loops wLoopsFS 10
        [Except.error IOErrorKind.otherKind, Except.ok wLink] =
      some (Except.error IOErrorKind.permissionDenied) := by
  decide

/-- Amended C4: `loops` skips walker-stream errors, but a failure to
read a directory reached while tracing a symlink propagates out of
`find_cycling_inode` and aborts the whole command with that error. -/
theorem loops_trace_error_aborts (fs : LoopsFS) (fuel : Nat) (cur : Meta)
    (rest : List Meta) (visited : List Nat) (e : IOErrorKind)
    (stream : List (Except IOErrorKind Meta)) (link : Meta)
    (links2 : List Meta) (err0 : IOErrorKind)
    (stream0 : List (Except IOErrorKind Meta))
    (hino : cur.ino ∉ visited)
    (hdir : cur.typ = FileType.directory)
    (hrd : fs.readDir cur.path = Except.error e)
    (hlinks : loopsLinks stream = link :: links2)
    (hfc : find_cycling_inode fs fuel [link] [] = some (Except.error e)) :
    find_cycling_inode fs (fuel + 1) (cur :: rest) visited =
      some (Except.error e) ∧
    loops fs fuel stream = some (Except.error e) ∧
    loopsLinks (Except.error err0 :: stream0) = loopsLinks stream0 := by
  refine ⟨?_, ?_, ?_⟩
  · simp [find_cycling_inode, hino, hdir, hrd]
  · rw [loops, hlinks, loopsGo, hfc]
  · simp [loopsLinks]

/-- Witness for the amended C4 on the concrete loops filesystem. -/
theorem loops_trace_error_aborts_witness :
    find_cycling_inode wLoopsFS (9 + 1) [wLinkDir] [] =
      some (Except.error IOErrorKind.permissionDenied) ∧
    loops wLoopsFS 9 [Except.error IOErrorKind.otherKind, Except.ok wLink] =
      some (Except.error IOErrorKind.permissionDenied) ∧
    loopsLinks (Except.error IOErrorKind.otherKind ::
        [Except.ok wLink]) =
      loopsLinks [Except.ok wLink] :=
  loops_trace_error_aborts wLoopsFS 9 wLinkDir [] []
    IOErrorKind.permissionDenied
    [Except.error IOErrorKind.otherKind, Except.ok wLink] wLink []
    IOErrorKind.otherKind [Except.ok wLink]
    (by decide) (by decide) (by decide) (by decide) (by decide)

end Fx
